import Mathlib

/-!
Verification of the PyTarot desktop application (pytarot.py) against its
natural-language specification.

The Python source is shallowly embedded: classes become structures, methods
become pure functions, and the in-place mutation of the deck and spread is
made explicit by passing and returning state values.  Python's global
random module is modelled by injecting a draw stream g : Nat -> Nat, the
sequence of raw pseudo-random values produced after random.seed(seed); a
seed string determines one such stream, so universally quantifying over g
covers every seed (the specification itself prescribes controlled PRNG
injection for these properties).  randint(a, b) is modelled as
a + g pos % (b - a + 1) and random.shuffle as the Fisher-Yates loop
(for i from len-1 down to 1, swap position i with a draw in [0, i]),
which is the algorithm CPython implements; each call consumes one draw
per loop step, so draw positions depend only on the list length.
-/

namespace PyTarot

/-- Embedding of class TrCard (pytarot.py lines 136-151): name, code and
keyword strings, the reversal flag, the optional spread coordinates and the
user note.  Python initialises min_coord and max_coord to the pair
(None, None) and only ever overwrites both components together with
numbers, so each coordinate pair is modelled as an optional pair of
rationals (Python's float arithmetic on these values is exact). -/
structure TrCard where
  card_name : String
  card_code : String
  keywd_up : String
  keywd_rev : String
  is_rev : Bool
  min_coord : Option (ℚ × ℚ)
  max_coord : Option (ℚ × ℚ)
  rdg_note : String
deriving DecidableEq, Repr

/-- Embedding of TrCard.__init__ (lines 139-151): fresh card, upright,
with no coordinates and an empty note. -/
def TrCard.init (cnm ccd kwu kwr : String) : TrCard :=
  ⟨cnm, ccd, kwu, kwr, false, none, none, ""⟩

/-- Configuration constants MIN_REV, MAX_REV (line 108). -/
def MIN_REV : Nat := 0

/-- Configuration constant MAX_REV (line 108). -/
def MAX_REV : Nat := 39

/-- Configuration constant REV_WORD (line 110). -/
def REV_WORD : String := "Reversed"

/-- Embedding of TrCard.__str__ (lines 154-159): the card name, with the
reversal word appended after a space when the card is reversed. -/
def TrCard.str (c : TrCard) : String :=
  if c.is_rev then c.card_name ++ " " ++ REV_WORD else c.card_name

/-- One step of Python list index assignment used for the swap
x[i], x[j] = x[j], x[i] inside random.shuffle: when both indices are in
range the two positions are exchanged, otherwise the list is unchanged
(random.shuffle only ever uses in-range indices). -/
def swapPos {α : Type} (l : List α) (i j : Nat) : List α :=
  match l[i]?, l[j]? with
  | some a, some b => (l.set i b).set j a
  | _, _ => l

/-- The Fisher-Yates loop of random.shuffle: with k+1 steps remaining the
current index is k+1, one draw g pos is consumed to pick
j = g pos % (k+2), an element of [0, k+1], positions k+1 and j are
swapped, and the loop continues at index k.  Returns the shuffled list
and the next unconsumed draw position. -/
def fyAux {α : Type} (g : Nat → Nat) : Nat → List α → Nat → List α × Nat
  | pos, l, 0 => (l, pos)
  | pos, l, k + 1 => fyAux g (pos + 1) (swapPos l (k + 1) (g pos % (k + 2))) k

/-- Embedding of random.shuffle(l) starting at draw position pos: the
Fisher-Yates loop from index l.length - 1 down to 1. -/
def pyShuffle {α : Type} (g : Nat → Nat) (pos : Nat) (l : List α) : List α × Nat :=
  fyAux g pos l (l.length - 1)

/-- The value n_rev = random.randint(MIN_REV, MAX_REV) drawn at line 192:
the first draw of the stream, folded into the inclusive range. -/
def n_rev (g : Nat → Nat) : Nat :=
  MIN_REV + g 0 % (MAX_REV - MIN_REV + 1)

/-- The toggle loop of TrDeck.shuffle (lines 196-198): flip is_rev on the
first n cards.  Python raises IndexError when n exceeds the deck length;
that failure case is handled by the caller (see shuffle). -/
def toggleFirst : Nat → List TrCard → List TrCard
  | 0, l => l
  | _ + 1, [] => []
  | n + 1, c :: t => { c with is_rev := !c.is_rev } :: toggleFirst n t

/-- Embedding of TrDeck.shuffle (lines 187-201): seed the generator (the
supplied stream g), draw n_rev, run random.shuffle, toggle the reversal
flag of the first n_rev cards, and run random.shuffle again.  Returns none
in the case where n_rev exceeds the deck length, in which Python's toggle
loop raises IndexError. -/
def shuffle (g : Nat → Nat) (deck : List TrCard) : Option (List TrCard) :=
  let n := n_rev g
  let p := pyShuffle g 1 deck
  if n ≤ p.1.length then
    some (pyShuffle g p.2 (toggleFirst n p.1)).1
  else
    none

/-- Two cards carry the same name, code, keywords and reversal flag (the
card data the shuffle claims speak about; coordinates and notes are
display state). -/
def cardEquiv (c₁ c₂ : TrCard) : Prop :=
  c₁.card_name = c₂.card_name ∧ c₁.card_code = c₂.card_code ∧
    c₁.keywd_up = c₂.keywd_up ∧ c₁.keywd_rev = c₂.keywd_rev ∧
    c₁.is_rev = c₂.is_rev

instance (c₁ c₂ : TrCard) : Decidable (cardEquiv c₁ c₂) := by
  unfold cardEquiv
  infer_instance

/-- The identity of a card: its name, code and keyword strings (everything
except the mutable reading state). -/
def cardId (c : TrCard) : String × String × String × String :=
  (c.card_name, c.card_code, c.keywd_up, c.keywd_rev)

/-- Pointwise lifting of a relation to optional values. -/
def optRel {α β : Type} (R : α → β → Prop) : Option α → Option β → Prop
  | some a, some b => R a b
  | none, none => True
  | _, _ => False

/-- Canvas cell dimensions CELL_SZ (line 116), in notional pixels. -/
def CELL_SZ : List ℚ := [240, 150]

/-- Canvas cell padding CELL_PAD (line 117). -/
def CELL_PAD : ℚ := 10

/-- One entry of a spread definition: column units, row units and the
position label (the triples of SPREAD_DEFN, lines 81-96). -/
structure SpreadEntry where
  col : ℚ
  row : ℚ
  label : String
deriving DecidableEq, Repr

/-- Embedding of the SPREAD_DEFN dictionary (lines 81-96): the two
built-in spread definitions, addressable by name. -/
def SPREAD_DEFN : String → Option (List SpreadEntry)
  | "3 Card Simple Quick" =>
    some [⟨0, 3 / 2, "1. Past"⟩, ⟨3 / 2, 3 / 2, "2. Present"⟩, ⟨3, 3 / 2, "3. Future"⟩]
  | "10 Card Celtic Cross" =>
    some [⟨1, 1, "1. Situation\x27s heart, atmosphere"⟩,
      ⟨1, 2, "2. Crossing challenges"⟩,
      ⟨1, 0, "3. Crowning ideal or goal"⟩,
      ⟨1, 3, "4. Root foundation"⟩,
      ⟨0, 3 / 2, "5. Past influence"⟩,
      ⟨2, 3 / 2, "6. Near future"⟩,
      ⟨3, 3, "7. Attitude facing concerns"⟩,
      ⟨3, 2, "8. Environment\x27s effects"⟩,
      ⟨3, 1, "9. Deep desires, fears"⟩,
      ⟨3, 0, "10. Culmination, outcome"⟩]
  | _ => none

/-- The mutable state of the WinTr window that the core operations touch
(lines 229-236, 250): the deck, the spread (a TrSpread is a TrDeck, so
its placements are a list of cards), the spread name, the drop-down
selection strv_sprd, the query and the timestamp strings. -/
structure WinState where
  tr_deck : List TrCard
  tr_sprd : List TrCard
  sprd_name : String
  strv_sprd : String
  tr_qry : String
  tr_datetime : String
deriving DecidableEq, Repr

/-- The card produced by one deal step: show_spread computes the cell
coordinates (lines 483-488) and TrSpread.add_card writes them onto the
consumed card (lines 215-219): origin at
(col times CELL_SZ[0] plus CELL_PAD, row times CELL_SZ[1] plus CELL_PAD),
extent adding CELL_SZ[0] minus twice CELL_PAD horizontally and
CELL_SZ[1] minus twice CELL_PAD vertically. -/
def placed (c : TrCard) (e : SpreadEntry) : TrCard :=
  let i_x : ℚ := e.col * CELL_SZ.get ⟨0, by decide⟩ + CELL_PAD
  let i_y : ℚ := e.row * CELL_SZ.get ⟨1, by decide⟩ + CELL_PAD
  { c with
    min_coord := some (i_x, i_y),
    max_coord := some (i_x + CELL_SZ.get ⟨0, by decide⟩ - 2 * CELL_PAD,
      i_y + CELL_SZ.get ⟨1, by decide⟩ - 2 * CELL_PAD) }

/-- The deal loop of WinTr.show_spread (lines 475-509), restricted to its
state effects (canvas drawing and pauses are presentation only): for each
definition entry, index i reads self.tr_deck.deck[i_card], which raises
IndexError when the deck is exhausted (modelled by Except.error carrying
the state mutated so far, as the exception propagates out of the
handler); otherwise the card is given its coordinates and appended to the
spread by add_card.  The deck list itself holds the same card object, so
the coordinate write is visible at the deck index too. -/
def show_spread_loop : WinState → Nat → List SpreadEntry → Except WinState WinState
  | st, _, [] => .ok st
  | st, i, e :: rest =>
    match st.tr_deck[i]? with
    | none => .error st
    | some c =>
      show_spread_loop
        { st with
          tr_deck := st.tr_deck.set i (placed c e),
          tr_sprd := st.tr_sprd ++ [placed c e] }
        (i + 1) rest

/-- Embedding of WinTr.show_spread (lines 462-512): the chosen definition
cfg stands for SPREAD_DEFN[self.strv_sprd.get()] (line 472; the claims
quantify over definitions, so it is a parameter), the spread name is set
from the drop-down (line 473), and the deal loop runs from index 0.
Clearing the canvas (line 465) erases pixels only; the spread state is
not cleared. -/
def show_spread (cfg : List SpreadEntry) (st : WinState) : Except WinState WinState :=
  show_spread_loop { st with sprd_name := st.strv_sprd } 0 cfg

/-- The region test of WinTr.on_click (lines 309-312): the point lies
strictly inside the card region on both axes.  A card whose coordinates
were never set holds None in Python and the comparison would raise
TypeError; cards reached by on_click always carry coordinates (add_card
sets them), and the fallback branch returns false for the unreachable
missing-coordinate case. -/
def containsPt (c : TrCard) (px py : ℚ) : Bool :=
  match c.min_coord, c.max_coord with
  | some (mnx, mny), some (mxx, mxy) =>
    px > mnx && px < mxx && py > mny && py < mxy
  | _, _ => false

/-- The loop of WinTr.on_click (lines 306-316) over the spread cards with
a running index: every matching card overwrites self.at_card_ix (there is
no break), so the accumulator ends as the last matching index, or keeps
its previous value when nothing matches. -/
def on_click_aux (px py : ℚ) : List TrCard → Nat → Option Nat → Option Nat
  | [], _, acc => acc
  | c :: t, base, acc =>
    on_click_aux px py t (base + 1) (if containsPt c px py then some base else acc)

/-- Embedding of WinTr.on_click (lines 302-316): scan the spread from
index 0 with the incoming value of self.at_card_ix, returning its final
value. -/
def on_click (spread : List TrCard) (px py : ℚ) (at0 : Option Nat) : Option Nat :=
  on_click_aux px py spread 0 at0

/-- One exported data row of WinTr.prompt_quit (lines 449-453): the
definition entry label, then the deck card name with a space and REV_WORD
appended when the card is reversed. -/
def mkRow (e : SpreadEntry) (c : TrCard) : List String :=
  [e.label, if c.is_rev then c.card_name ++ " " ++ REV_WORD else c.card_name]

/-- Embedding of WinTr.prompt_quit (lines 427-459), restricted to the
rows written to the CSV file and a completion flag.  An empty file name
aborts before any row (lines 437-439).  Otherwise the header row is
written (lines 447-448) and the loop for i_card in range(len(sprd_config))
begins; its bound sprd_config is resolved by Python name lookup, passed
here as the optional binding visible in prompt_quit.  When the name is
unbound the loop header raises NameError and only the header row has been
written; when bound, one row per entry is written, failing midway with
IndexError if the deck is shorter than the definition. -/
def prompt_quit_rows (f_name : String) (st : WinState)
    (sprd_config : Option (List SpreadEntry)) : List (List String) × Bool :=
  if f_name = "" then ([], false)
  else
    match sprd_config with
    | none => ([["PyTarot reading", st.strv_sprd, st.tr_datetime, st.tr_qry]], false)
    | some cfg =>
      (["PyTarot reading", st.strv_sprd, st.tr_datetime, st.tr_qry] ::
        List.zipWith mkRow cfg st.tr_deck,
        decide (cfg.length ≤ st.tr_deck.length))

/-- The binding of the name sprd_config as seen from the body of
WinTr.prompt_quit.  In pytarot.py the name sprd_config is assigned only
inside WinTr.show_spread (line 472), where it is a function-local
variable; no assignment at module level or in prompt_quit exists, and
methods do not share local scopes, so Python name resolution in
prompt_quit finds no binding: the loop at line 449 raises NameError. -/
def sprd_config_in_prompt_quit : Option (List SpreadEntry) := none

/-- Projection of a deal result to its state, whichever way it ended
(the error payload is the state at the moment the IndexError escaped). -/
def exceptState (r : Except WinState WinState) : WinState :=
  match r with
  | .error st => st
  | .ok st => st

/-- Whether a deal completed without raising. -/
def exceptIsOk (r : Except WinState WinState) : Bool :=
  match r with
  | .error _ => false
  | .ok _ => true

/-- Number of reversed cards in a list (the quantity bounded by the
reversal-range property). -/
def revCount (l : List TrCard) : Nat :=
  l.countP fun c => c.is_rev

/-- A draw stream that always yields 0: n_rev = 0 and every Fisher-Yates
step swaps with position 0. -/
def gZero : Nat → Nat := fun _ => 0

/-- A draw stream giving n_rev = 0, a swap in the first
random.shuffle call of a 2-card deck and no swap in the second. -/
def gSwap : Nat → Nat := fun pos => if pos ≤ 1 then 0 else 1

/-- Concrete card fixture. -/
def cardA : TrCard := TrCard.init "The Fool" "0" "beginnings" "recklessness"

/-- The same card data as cardA with a user note: cardEquiv-related to
cardA but not equal to it. -/
def cardA_noted : TrCard := { cardA with rdg_note := "a note" }

/-- Concrete card fixture. -/
def cA : TrCard := TrCard.init "A" "a" "" ""

/-- Concrete card fixture. -/
def cB : TrCard := TrCard.init "B" "b" "" ""

/-- A card that starts a session already reversed. -/
def cardRev : TrCard := { cardA with is_rev := true }

/-- A deck of 40 cards all reversed: large enough that MAX_REV does not
exceed the deck size, as the configuration comment (line 107) assumes. -/
def deck40 : List TrCard := List.replicate 40 cardRev

/-- A card whose spread region is the square from (0, 0) to (10, 10). -/
def cHit (nm : String) : TrCard :=
  { TrCard.init nm nm "" "" with
    min_coord := some (0, 0), max_coord := some (10, 10) }

/-- A card whose spread region is the square from (100, 100) to
(110, 110). -/
def cFar : TrCard :=
  { TrCard.init "Far" "f" "" "" with
    min_coord := some (100, 100), max_coord := some (110, 110) }

/-- The 10-position built-in definition. -/
def celticCfg : List SpreadEntry := (SPREAD_DEFN "10 Card Celtic Cross").getD []

/-- The 3-position built-in definition. -/
def simpleCfg : List SpreadEntry := (SPREAD_DEFN "3 Card Simple Quick").getD []

/-- A session state holding 7 cards with the 10-position spread chosen. -/
def stC6 : WinState := ⟨List.replicate 7 cA, [], "", "10 Card Celtic Cross", "q", "t"⟩

/-- A session state holding 3 cards with the 3-position spread chosen. -/
def stC9 : WinState := ⟨List.replicate 3 cA, [], "", "3 Card Simple Quick", "q", "t"⟩

/-- The session state after successfully dealing the 3-position spread
from stC9. -/
def stDealt : WinState := exceptState (show_spread simpleCfg stC9)

theorem forall₂_getElem? {α β : Type} {R : α → β → Prop} :
    ∀ {l₁ : List α} {l₂ : List β}, List.Forall₂ R l₁ l₂ →
      ∀ i : Nat, optRel R l₁[i]? l₂[i]? := by
  intro l₁ l₂ h
  induction h with
  | nil => intro i; simp [optRel]
  | cons hab _ ih =>
    intro i
    cases i with
    | zero => simpa [optRel] using hab
    | succ k => simpa using ih k

theorem forall₂_set {α β : Type} {R : α → β → Prop} {a : α} {b : β} :
    ∀ {l₁ : List α} {l₂ : List β}, List.Forall₂ R l₁ l₂ → R a b →
      ∀ i : Nat, List.Forall₂ R (l₁.set i a) (l₂.set i b) := by
  intro l₁ l₂ h hab
  induction h with
  | nil => intro i; simp
  | cons hcd htl ih =>
    intro i
    cases i with
    | zero => exact List.Forall₂.cons hab htl
    | succ k => exact List.Forall₂.cons hcd (ih k)

theorem forall₂_swapPos {α β : Type} {R : α → β → Prop}
    {l₁ : List α} {l₂ : List β} (h : List.Forall₂ R l₁ l₂) (i j : Nat) :
    List.Forall₂ R (swapPos l₁ i j) (swapPos l₂ i j) := by
  have hi := forall₂_getElem? h i
  have hj := forall₂_getElem? h j
  unfold swapPos
  cases e₁ : l₁[i]? with
  | none =>
    rw [e₁] at hi
    cases e₂ : l₂[i]? with
    | none => cases l₁[j]? <;> cases l₂[j]? <;> exact h
    | some b => rw [e₂] at hi; exact absurd hi (by simp [optRel])
  | some a =>
    rw [e₁] at hi
    cases e₂ : l₂[i]? with
    | none => rw [e₂] at hi; exact absurd hi (by simp [optRel])
    | some b =>
      rw [e₂] at hi
      cases f₁ : l₁[j]? with
      | none =>
        rw [f₁] at hj
        cases f₂ : l₂[j]? with
        | none => exact h
        | some d => rw [f₂] at hj; exact absurd hj (by simp [optRel])
      | some c =>
        rw [f₁] at hj
        cases f₂ : l₂[j]? with
        | none => rw [f₂] at hj; exact absurd hj (by simp [optRel])
        | some d =>
          rw [f₂] at hj
          exact forall₂_set (forall₂_set h hj i) hi j

theorem forall₂_fyAux {α β : Type} {R : α → β → Prop} (g : Nat → Nat) :
    ∀ (k : Nat) (pos : Nat) {l₁ : List α} {l₂ : List β},
      List.Forall₂ R l₁ l₂ →
      List.Forall₂ R (fyAux g pos l₁ k).1 (fyAux g pos l₂ k).1 := by
  intro k
  induction k with
  | zero => intro pos l₁ l₂ h; exact h
  | succ n ih =>
    intro pos l₁ l₂ h
    exact ih (pos + 1) (forall₂_swapPos h (n + 1) (g pos % (n + 2)))

theorem fyAux_snd {α : Type} (g : Nat → Nat) :
    ∀ (k : Nat) (pos : Nat) (l : List α), (fyAux g pos l k).2 = pos + k := by
  intro k
  induction k with
  | zero => intro pos l; rfl
  | succ n ih =>
    intro pos l
    rw [fyAux, ih]
    omega

theorem forall₂_toggleFirst :
    ∀ (n : Nat) {l₁ l₂ : List TrCard}, List.Forall₂ cardEquiv l₁ l₂ →
      List.Forall₂ cardEquiv (toggleFirst n l₁) (toggleFirst n l₂) := by
  intro n
  induction n with
  | zero => intro l₁ l₂ h; exact h
  | succ m ih =>
    intro l₁ l₂ h
    cases h with
    | nil => exact List.Forall₂.nil
    | cons hab htl =>
      refine List.Forall₂.cons ?_ (ih htl)
      obtain ⟨h1, h2, h3, h4, h5⟩ := hab
      exact ⟨h1, h2, h3, h4, by simp [h5]⟩

theorem shuffle_congr (g : Nat → Nat) {d₁ d₂ : List TrCard}
    (h : List.Forall₂ cardEquiv d₁ d₂) :
    (shuffle g d₁).isSome = (shuffle g d₂).isSome ∧
      ∀ r₁ r₂, shuffle g d₁ = some r₁ → shuffle g d₂ = some r₂ →
        List.Forall₂ cardEquiv r₁ r₂ := by
  have hlen : d₁.length = d₂.length := h.length_eq
  have h1 : List.Forall₂ cardEquiv
      (fyAux g 1 d₁ (d₁.length - 1)).1 (fyAux g 1 d₂ (d₂.length - 1)).1 := by
    rw [hlen]
    exact forall₂_fyAux g (d₂.length - 1) 1 h
  have ht := forall₂_toggleFirst (n_rev g) h1
  have hsnd : (fyAux g 1 d₁ (d₁.length - 1)).2 = (fyAux g 1 d₂ (d₂.length - 1)).2 := by
    rw [fyAux_snd, fyAux_snd, hlen]
  have h2 : List.Forall₂ cardEquiv
      (fyAux g (fyAux g 1 d₁ (d₁.length - 1)).2
        (toggleFirst (n_rev g) (fyAux g 1 d₁ (d₁.length - 1)).1)
        ((toggleFirst (n_rev g) (fyAux g 1 d₁ (d₁.length - 1)).1).length - 1)).1
      (fyAux g (fyAux g 1 d₂ (d₂.length - 1)).2
        (toggleFirst (n_rev g) (fyAux g 1 d₂ (d₂.length - 1)).1)
        ((toggleFirst (n_rev g) (fyAux g 1 d₂ (d₂.length - 1)).1).length - 1)).1 := by
    rw [hsnd, ht.length_eq]
    exact forall₂_fyAux g _ _ ht
  simp only [shuffle, pyShuffle]
  rw [h1.length_eq]
  by_cases hc : n_rev g ≤ (fyAux g 1 d₂ (d₂.length - 1)).1.length
  · simp only [if_pos hc]
    refine ⟨by trivial, ?_⟩
    intro r₁ r₂ e₁ e₂
    simp only [Option.some.injEq] at e₁ e₂
    rw [← e₁, ← e₂]
    exact h2
  · simp only [if_neg hc]
    exact ⟨by trivial, by intro r₁ r₂ e₁ _; exact absurd e₁ (by simp)⟩

theorem cons_getElem_set_perm {α : Type} :
    ∀ (t : List α) (k : Nat) (h : k < t.length) (a : α),
      List.Perm (t[k] :: t.set k a) (a :: t) := by
  intro t
  induction t with
  | nil => intro k h a; simp at h
  | cons b s ih =>
    intro k h a
    cases k with
    | zero =>
      simp only [List.getElem_cons_zero, List.set_cons_zero]
      exact List.Perm.swap a b s
    | succ m =>
      have hm : m < s.length := by
        have := h
        simp only [List.length_cons] at this
        omega
      simp only [List.getElem_cons_succ, List.set_cons_succ]
      exact ((List.Perm.swap b _ _).trans ((ih m hm a).cons b)).trans
        (List.Perm.swap a b s)

theorem set_set_swap_perm {α : Type} :
    ∀ (l : List α) (i j : Nat) (hi : i < l.length) (hj : j < l.length),
      List.Perm ((l.set i l[j]).set j l[i]) l := by
  intro l
  induction l with
  | nil => intro i j hi _; simp at hi
  | cons c t ih =>
    intro i j hi hj
    cases i with
    | zero =>
      cases j with
      | zero => simp
      | succ m =>
        have hm : m < t.length := by
          simp only [List.length_cons] at hj
          omega
        simp only [List.getElem_cons_succ, List.getElem_cons_zero,
          List.set_cons_zero, List.set_cons_succ]
        exact cons_getElem_set_perm t m hm c
    | succ n =>
      have hn : n < t.length := by
        simp only [List.length_cons] at hi
        omega
      cases j with
      | zero =>
        simp only [List.getElem_cons_zero, List.getElem_cons_succ,
          List.set_cons_succ, List.set_cons_zero]
        exact cons_getElem_set_perm t n hn c
      | succ m =>
        have hm : m < t.length := by
          simp only [List.length_cons] at hj
          omega
        simp only [List.getElem_cons_succ, List.set_cons_succ]
        exact (ih n m hn hm).cons c

theorem swapPos_perm {α : Type} (l : List α) (i j : Nat) :
    List.Perm (swapPos l i j) l := by
  unfold swapPos
  split
  · next a b e₁ e₂ =>
    obtain ⟨hi, ha⟩ := List.getElem?_eq_some.mp e₁
    obtain ⟨hj, hb⟩ := List.getElem?_eq_some.mp e₂
    rw [← ha, ← hb]
    exact set_set_swap_perm l i j hi hj
  · exact List.Perm.refl l

theorem fyAux_perm {α : Type} (g : Nat → Nat) :
    ∀ (k pos : Nat) (l : List α), List.Perm (fyAux g pos l k).1 l := by
  intro k
  induction k with
  | zero => intro pos l; exact List.Perm.refl l
  | succ n ih =>
    intro pos l
    exact (ih (pos + 1) _).trans (swapPos_perm l (n + 1) (g pos % (n + 2)))

theorem pyShuffle_fst_perm {α : Type} (g : Nat → Nat) (pos : Nat) (l : List α) :
    List.Perm (pyShuffle g pos l).1 l :=
  fyAux_perm g (l.length - 1) pos l

theorem pyShuffle_length {α : Type} (g : Nat → Nat) (pos : Nat) (l : List α) :
    (pyShuffle g pos l).1.length = l.length :=
  (pyShuffle_fst_perm g pos l).length_eq

theorem toggleFirst_map_cardId : ∀ (n : Nat) (l : List TrCard),
    (toggleFirst n l).map cardId = l.map cardId := by
  intro n
  induction n with
  | zero => intro l; rfl
  | succ m ih =>
    intro l
    cases l with
    | nil => rfl
    | cons c t =>
      simp only [toggleFirst, List.map_cons, ih]
      rfl

theorem toggleFirst_length (n : Nat) (l : List TrCard) :
    (toggleFirst n l).length = l.length := by
  have h := congrArg List.length (toggleFirst_map_cardId n l)
  simpa using h

theorem shuffle_eq_some_of_le (g : Nat → Nat) (d : List TrCard)
    (h : n_rev g ≤ d.length) :
    shuffle g d =
      some (pyShuffle g (pyShuffle g 1 d).2
        (toggleFirst (n_rev g) (pyShuffle g 1 d).1)).1 := by
  simp only [shuffle]
  rw [if_pos]
  exact le_of_le_of_eq h (pyShuffle_length g 1 d).symm

theorem shuffle_some_elim (g : Nat → Nat) (d r : List TrCard)
    (h : shuffle g d = some r) :
    n_rev g ≤ d.length ∧
      r = (pyShuffle g (pyShuffle g 1 d).2
        (toggleFirst (n_rev g) (pyShuffle g 1 d).1)).1 := by
  simp only [shuffle] at h
  by_cases hc : n_rev g ≤ (pyShuffle g 1 d).1.length
  · rw [if_pos hc] at h
    refine ⟨?_, (Option.some_inj.mp h).symm⟩
    rw [pyShuffle_length g 1 d] at hc
    exact hc
  · rw [if_neg hc] at h
    cases h

theorem n_rev_le_MAX (g : Nat → Nat) : n_rev g ≤ MAX_REV := by
  unfold n_rev MIN_REV MAX_REV
  have h : g 0 % 40 < 40 := Nat.mod_lt _ (by decide)
  omega

theorem revCount_toggleFirst_upright :
    ∀ (n : Nat) (l : List TrCard), (∀ c ∈ l, c.is_rev = false) →
      revCount (toggleFirst n l) = min n l.length := by
  intro n
  induction n with
  | zero =>
    intro l hup
    have h0 : l.countP (fun c => c.is_rev) = 0 := by
      rw [List.countP_eq_zero]
      intro a ha
      simp [hup a ha]
    simp [revCount, toggleFirst, h0]
  | succ m ih =>
    intro l hup
    cases l with
    | nil => simp [revCount, toggleFirst]
    | cons c t =>
      have hc : c.is_rev = false := hup c (by simp)
      have ht : ∀ x ∈ t, x.is_rev = false := fun x hx => hup x (by simp [hx])
      have hgoal := ih t ht
      unfold revCount at hgoal ⊢
      simp only [toggleFirst, List.countP_cons, hgoal, hc, List.length_cons]
      simp only [Bool.not_false, if_pos]
      omega

/-- C1: shuffle is deterministic in the seed: two decks holding identical
card sequences (same names, codes, keywords and reversal flags in the
same order — with possibly different notes or coordinates), shuffled with
the same seed (hence the same draw stream), end in identical order with
identical reversal flags; the two calls also succeed or fail together. -/
theorem shuffle_deterministic_per_seed (g : Nat → Nat) (d₁ d₂ : List TrCard)
    (h : List.Forall₂ cardEquiv d₁ d₂) :
    (shuffle g d₁).isSome = (shuffle g d₂).isSome ∧
      ∀ r₁ r₂, shuffle g d₁ = some r₁ → shuffle g d₂ = some r₂ →
        List.Forall₂ cardEquiv r₁ r₂ :=
  shuffle_congr g h

theorem shuffle_deterministic_per_seed_witness :
    List.Forall₂ cardEquiv [cardA] [cardA_noted] ∧
      ((shuffle gZero [cardA]).isSome = (shuffle gZero [cardA_noted]).isSome ∧
        ∀ r₁ r₂, shuffle gZero [cardA] = some r₁ →
          shuffle gZero [cardA_noted] = some r₂ →
          List.Forall₂ cardEquiv r₁ r₂) :=
  have hf : List.Forall₂ cardEquiv [cardA] [cardA_noted] :=
    List.Forall₂.cons (by decide) List.Forall₂.nil
  ⟨hf, shuffle_deterministic_per_seed gZero [cardA] [cardA_noted] hf⟩

/-- C10: shuffle preserves the multiset of cards: when it completes, no
card is added or removed — the deck length is unchanged and the multiset
of card identities (name, code, keywords) is invariant; only the order
and the reversal flags change. -/
theorem shuffle_preserves_card_multiset (g : Nat → Nat) (d r : List TrCard)
    (h : shuffle g d = some r) :
    r.length = d.length ∧ List.Perm (r.map cardId) (d.map cardId) := by
  obtain ⟨-, hr⟩ := shuffle_some_elim g d r h
  subst hr
  have p1 := pyShuffle_fst_perm g 1 d
  have p2 := pyShuffle_fst_perm g (pyShuffle g 1 d).2
    (toggleFirst (n_rev g) (pyShuffle g 1 d).1)
  constructor
  · rw [p2.length_eq, toggleFirst_length, p1.length_eq]
  · have hmap := p2.map cardId
    rw [toggleFirst_map_cardId] at hmap
    exact hmap.trans (p1.map cardId)

theorem shuffle_preserves_card_multiset_witness :
    shuffle gZero [cardA] = some [cardA] ∧
      ([cardA] : List TrCard).length = ([cardA] : List TrCard).length ∧
      List.Perm (([cardA] : List TrCard).map cardId)
        (([cardA] : List TrCard).map cardId) :=
  ⟨by decide, shuffle_preserves_card_multiset gZero [cardA] [cardA] (by decide)⟩

/-- C7 (amended): when every card is upright before the shuffle — the
state a freshly loaded deck is in — the number of reversed cards after a
completed shuffle equals the drawn value n_rev, which lies in the
inclusive range from MIN_REV to MAX_REV; the flags changed only by the
toggles applied to the first n_rev cards after the first permutation.
The range bound does not hold for arbitrary pre-shuffle flags (see the
counterexample), which is the correction to the claim. -/
theorem shuffle_rev_count_upright (g : Nat → Nat) (d r : List TrCard)
    (hup : ∀ c ∈ d, c.is_rev = false) (h : shuffle g d = some r) :
    revCount r = n_rev g ∧ MIN_REV ≤ n_rev g ∧ n_rev g ≤ MAX_REV := by
  obtain ⟨hle, hr⟩ := shuffle_some_elim g d r h
  subst hr
  have p1 := pyShuffle_fst_perm g 1 d
  have p2 := pyShuffle_fst_perm g (pyShuffle g 1 d).2
    (toggleFirst (n_rev g) (pyShuffle g 1 d).1)
  have hup1 : ∀ c ∈ (pyShuffle g 1 d).1, c.is_rev = false :=
    fun c hc => hup c (p1.mem_iff.mp hc)
  refine ⟨?_, Nat.le_add_right MIN_REV _, n_rev_le_MAX g⟩
  have hcnt := revCount_toggleFirst_upright (n_rev g) (pyShuffle g 1 d).1 hup1
  unfold revCount at hcnt ⊢
  rw [p2.countP_eq, hcnt, pyShuffle_length g 1 d]
  exact Nat.min_eq_left hle

/-- C7 (counterexample): for a deck whose cards all start reversed (and
which is large enough that MAX_REV does not exceed the deck size), a
stream drawing n_rev = 0 completes the shuffle with 40 reversed cards,
exceeding MAX_REV = 39: the claimed range bound fails for arbitrary
pre-shuffle deck states. -/
theorem shuffle_rev_count_range_refuted :
    (shuffle gZero deck40).map revCount = some 40 ∧ MAX_REV = 39 := by
  refine ⟨?_, rfl⟩
  rw [shuffle_eq_some_of_le gZero deck40 (by decide)]
  have p1 := pyShuffle_fst_perm gZero 1 deck40
  have p2 := pyShuffle_fst_perm gZero (pyShuffle gZero 1 deck40).2
    (toggleFirst (n_rev gZero) (pyShuffle gZero 1 deck40).1)
  have ht : toggleFirst (n_rev gZero) (pyShuffle gZero 1 deck40).1 =
      (pyShuffle gZero 1 deck40).1 := rfl
  rw [ht] at p2
  have hperm := p2.trans p1
  simp only [Option.map_some']
  have hcnt := hperm.countP_eq fun c => c.is_rev
  unfold revCount
  rw [ht, hcnt]
  decide

theorem shuffle_rev_count_upright_witness :
    (∀ c ∈ ([cardA] : List TrCard), c.is_rev = false) ∧
      shuffle gZero [cardA] = some [cardA] ∧
      (revCount [cardA] = n_rev gZero ∧
        MIN_REV ≤ n_rev gZero ∧ n_rev gZero ≤ MAX_REV) :=
  ⟨by decide, by decide,
    shuffle_rev_count_upright gZero [cardA] [cardA] (by decide) (by decide)⟩

/-- C8 (amended): repeated shuffling with the same seed is reproducible
— the composite of two shuffle calls with the same seed is a
deterministic function of the seed and the initial deck, because each
call reseeds the generator — but shuffle is not idempotent: the second
call permutes the already-shuffled order again (see the
counterexample). -/
theorem double_shuffle_deterministic (g : Nat → Nat) (d₁ d₂ : List TrCard)
    (h : List.Forall₂ cardEquiv d₁ d₂) :
    ((shuffle g d₁).bind (shuffle g)).isSome =
        ((shuffle g d₂).bind (shuffle g)).isSome ∧
      ∀ r₁ r₂, (shuffle g d₁).bind (shuffle g) = some r₁ →
        (shuffle g d₂).bind (shuffle g) = some r₂ →
        List.Forall₂ cardEquiv r₁ r₂ := by
  obtain ⟨hs, hrel⟩ := shuffle_congr g h
  cases e₁ : shuffle g d₁ with
  | none =>
    have e₂ : shuffle g d₂ = none := by
      rw [e₁] at hs
      cases e₂ : shuffle g d₂ with
      | none => rfl
      | some m => rw [e₂] at hs; simp at hs
    rw [e₂]
    exact ⟨rfl, by intro r₁ r₂ h₁ _; simp at h₁⟩
  | some m₁ =>
    have hsome : (shuffle g d₂).isSome = true := by
      rw [← hs, e₁]
      rfl
    obtain ⟨m₂, e₂⟩ := Option.isSome_iff_exists.mp hsome
    rw [e₂]
    simp only [Option.some_bind]
    exact shuffle_congr g (hrel m₁ m₂ e₁ e₂)

/-- C8 (counterexample): a second shuffle call with the same seed on the
already-shuffled 2-card deck changes the order back, so its result
differs from the first call's result: shuffle is not idempotent per
seed. -/
theorem shuffle_not_idempotent :
    (shuffle gSwap [cA, cB]).bind (shuffle gSwap) ≠ shuffle gSwap [cA, cB] := by
  decide

theorem double_shuffle_deterministic_witness :
    List.Forall₂ cardEquiv [cA] [cA] ∧
      (((shuffle gZero [cA]).bind (shuffle gZero)).isSome =
          ((shuffle gZero [cA]).bind (shuffle gZero)).isSome ∧
        ∀ r₁ r₂, (shuffle gZero [cA]).bind (shuffle gZero) = some r₁ →
          (shuffle gZero [cA]).bind (shuffle gZero) = some r₂ →
          List.Forall₂ cardEquiv r₁ r₂) :=
  have hf : List.Forall₂ cardEquiv [cA] [cA] :=
    List.Forall₂.cons (by decide) List.Forall₂.nil
  ⟨hf, double_shuffle_deterministic gZero [cA] [cA] hf⟩

theorem take_set_succ {α : Type} :
    ∀ (l : List α) (i : Nat) (a : α), i < l.length →
      (l.set i a).take (i + 1) = l.take i ++ [a] := by
  intro l
  induction l with
  | nil => intro i a h; simp at h
  | cons c t ih =>
    intro i a h
    cases i with
    | zero => simp
    | succ m =>
      have hm : m < t.length := by
        simp only [List.length_cons] at h
        omega
      simp only [List.set_cons_succ, List.take_succ_cons, ih m a hm]
      rfl

theorem zipWith_getElem?_some {α β γ : Type} (f : α → β → γ) :
    ∀ (l₁ : List α) (l₂ : List β) (i : Nat) (a : α) (b : β),
      l₁[i]? = some a → l₂[i]? = some b →
      (List.zipWith f l₁ l₂)[i]? = some (f a b) := by
  intro l₁
  induction l₁ with
  | nil => intro l₂ i a b h; simp at h
  | cons x t ih =>
    intro l₂ i a b h₁ h₂
    cases l₂ with
    | nil => simp at h₂
    | cons y s =>
      cases i with
      | zero =>
        simp only [List.getElem?_cons_zero, Option.some_inj] at h₁ h₂
        simp [List.zipWith_cons_cons, h₁, h₂]
      | succ m =>
        simp only [List.getElem?_cons_succ] at h₁ h₂
        simp [List.zipWith_cons_cons, ih s m a b h₁ h₂]

theorem show_spread_loop_ok :
    ∀ (rest : List SpreadEntry) (st : WinState) (i : Nat),
      i + rest.length ≤ st.tr_deck.length →
      show_spread_loop st i rest =
        .ok ⟨st.tr_deck.take i ++
            List.zipWith placed (st.tr_deck.drop i) rest ++
            st.tr_deck.drop (i + rest.length),
          st.tr_sprd ++ List.zipWith placed (st.tr_deck.drop i) rest,
          st.sprd_name, st.strv_sprd, st.tr_qry, st.tr_datetime⟩ := by
  intro rest
  induction rest with
  | nil =>
    intro st i h
    simp only [show_spread_loop, List.zipWith_nil_right, List.append_nil,
      List.length_nil, Nat.add_zero, List.take_append_drop]
  | cons e rest ih =>
    intro st i h
    have hi : i < st.tr_deck.length := by
      simp only [List.length_cons] at h
      omega
    have hsome : st.tr_deck[i]? = some st.tr_deck[i] := List.getElem?_eq_getElem hi
    simp only [show_spread_loop, hsome]
    rw [ih _ (i + 1) (by simp only [List.length_set, List.length_cons] at h ⊢; omega)]
    simp only [List.drop_set_of_lt _ _ (Nat.lt_succ_self i),
      List.drop_set_of_lt _ _ (show i < i + 1 + rest.length by omega),
      take_set_succ _ i _ hi,
      List.drop_eq_getElem_cons hi, List.zipWith_cons_cons]
    have harith : i + 1 + rest.length = i + (rest.length + 1) := by omega
    rw [harith]
    simp [List.append_assoc]

theorem show_spread_loop_err :
    ∀ (rest : List SpreadEntry) (st : WinState) (i : Nat),
      st.tr_deck.length < i + rest.length → i ≤ st.tr_deck.length →
      show_spread_loop st i rest =
        .error ⟨st.tr_deck.take i ++
            List.zipWith placed (st.tr_deck.drop i) rest,
          st.tr_sprd ++ List.zipWith placed (st.tr_deck.drop i) rest,
          st.sprd_name, st.strv_sprd, st.tr_qry, st.tr_datetime⟩ := by
  intro rest
  induction rest with
  | nil =>
    intro st i h1 h2
    simp only [List.length_nil] at h1
    omega
  | cons e rest ih =>
    intro st i h1 h2
    by_cases hi : i < st.tr_deck.length
    · have hsome : st.tr_deck[i]? = some st.tr_deck[i] := List.getElem?_eq_getElem hi
      simp only [show_spread_loop, hsome]
      rw [ih _ (i + 1)
        (by simp only [List.length_set, List.length_cons] at h1 ⊢; omega)
        (by simp only [List.length_set]; omega)]
      simp only [List.drop_set_of_lt _ _ (Nat.lt_succ_self i),
        take_set_succ _ i _ hi,
        List.drop_eq_getElem_cons hi, List.zipWith_cons_cons]
      simp [List.append_assoc]
    · have hieq : i = st.tr_deck.length := by omega
      have hnone : st.tr_deck[i]? = none := by
        rw [hieq]
        simp
      simp only [show_spread_loop, hnone]
      subst hieq
      simp only [List.take_length, List.drop_length, List.zipWith_nil_left,
        List.append_nil]

/-- C5: with enough cards, the deal completes and consumes cards in
lockstep — placement i (appended after any pre-existing placements)
holds the card that sat at deck index i before the deal, stamped with
the region whose origin is (columnUnits * CELL_SZ[0] + CELL_PAD,
rowUnits * CELL_SZ[1] + CELL_PAD) and whose extent adds
(CELL_SZ[0] - 2 * CELL_PAD, CELL_SZ[1] - 2 * CELL_PAD); the same
stamped card is visible at deck index i, since the spread references
the deck's card object. -/
theorem materialize_lockstep_regions (cfg : List SpreadEntry) (st : WinState)
    (h : cfg.length ≤ st.tr_deck.length) :
    ∃ st2, show_spread cfg st = .ok st2 ∧
      st2.tr_sprd = st.tr_sprd ++ List.zipWith placed st.tr_deck cfg ∧
      st2.tr_deck = List.zipWith placed st.tr_deck cfg ++
        st.tr_deck.drop cfg.length ∧
      (∀ i c e, st.tr_deck[i]? = some c → cfg[i]? = some e →
        st2.tr_sprd[st.tr_sprd.length + i]? = some (placed c e) ∧
        st2.tr_deck[i]? = some (placed c e)) ∧
      ∀ c e, (placed c e).min_coord =
          some (e.col * CELL_SZ.get ⟨0, by decide⟩ + CELL_PAD,
            e.row * CELL_SZ.get ⟨1, by decide⟩ + CELL_PAD) ∧
        (placed c e).max_coord =
          some (e.col * CELL_SZ.get ⟨0, by decide⟩ + CELL_PAD +
              (CELL_SZ.get ⟨0, by decide⟩ - 2 * CELL_PAD),
            e.row * CELL_SZ.get ⟨1, by decide⟩ + CELL_PAD +
              (CELL_SZ.get ⟨1, by decide⟩ - 2 * CELL_PAD)) := by
  unfold show_spread
  rw [show_spread_loop_ok cfg _ 0 (by simpa using h)]
  refine ⟨_, rfl, by simp, by simp, ?_, ?_⟩
  · intro i c e hc he
    have hicfg : i < cfg.length := (List.getElem?_eq_some.mp he).1
    have hz := zipWith_getElem?_some placed st.tr_deck cfg i c e hc he
    constructor
    · show (st.tr_sprd ++ List.zipWith placed (st.tr_deck.drop 0) cfg)[st.tr_sprd.length + i]? = _
      rw [List.getElem?_append_right (Nat.le_add_right _ _), List.drop_zero,
        Nat.add_sub_cancel_left]
      exact hz
    · show (List.take 0 st.tr_deck ++
        (List.zipWith placed (st.tr_deck.drop 0) cfg ++ st.tr_deck.drop (0 + cfg.length)))[i]? = _
      have hlt : i < (List.zipWith placed (st.tr_deck.drop 0) cfg).length := by
        simp only [List.length_zipWith, List.drop_zero]
        omega
      rw [List.take_zero, List.nil_append, List.getElem?_append, if_pos hlt,
        List.drop_zero]
      exact hz
  · intro c e
    constructor
    · rfl
    · simp only [placed, Option.some_inj, Prod.mk.injEq]
      constructor <;> ring

theorem materialize_lockstep_regions_witness :
    simpleCfg.length ≤ stC9.tr_deck.length ∧
      ∃ st2, show_spread simpleCfg stC9 = .ok st2 ∧
        st2.tr_sprd = stC9.tr_sprd ++ List.zipWith placed stC9.tr_deck simpleCfg ∧
        st2.tr_deck = List.zipWith placed stC9.tr_deck simpleCfg ++
          stC9.tr_deck.drop simpleCfg.length ∧
        (∀ i c e, stC9.tr_deck[i]? = some c → simpleCfg[i]? = some e →
          st2.tr_sprd[stC9.tr_sprd.length + i]? = some (placed c e) ∧
          st2.tr_deck[i]? = some (placed c e)) ∧
        ∀ c e, (placed c e).min_coord =
            some (e.col * CELL_SZ.get ⟨0, by decide⟩ + CELL_PAD,
              e.row * CELL_SZ.get ⟨1, by decide⟩ + CELL_PAD) ∧
          (placed c e).max_coord =
            some (e.col * CELL_SZ.get ⟨0, by decide⟩ + CELL_PAD +
                (CELL_SZ.get ⟨0, by decide⟩ - 2 * CELL_PAD),
              e.row * CELL_SZ.get ⟨1, by decide⟩ + CELL_PAD +
                (CELL_SZ.get ⟨1, by decide⟩ - 2 * CELL_PAD)) :=
  ⟨by decide, materialize_lockstep_regions simpleCfg stC9 (by decide)⟩

/-- C6 (amended): with fewer cards than definition entries, the deal
fails — Python raises IndexError at the first exhausted index (there is
no InsufficientCardsError in the program) — but it is not atomic: before
failing it has appended one placement per remaining deck card, so the
previously materialized spread is extended, not retained unchanged. -/
theorem materialize_short_deck_partial (cfg : List SpreadEntry) (st : WinState)
    (h : st.tr_deck.length < cfg.length) :
    ∃ st2, show_spread cfg st = .error st2 ∧
      st2.tr_sprd = st.tr_sprd ++ List.zipWith placed st.tr_deck cfg ∧
      st2.tr_sprd.length = st.tr_sprd.length + st.tr_deck.length := by
  unfold show_spread
  rw [show_spread_loop_err cfg _ 0 (by simpa using h) (Nat.zero_le _)]
  refine ⟨_, rfl, by simp, ?_⟩
  simp only [List.length_append, List.length_zipWith, List.drop_zero]
  omega

/-- C6 (counterexample): dealing the 10-position definition from a
7-card deck fails, but the spread has gained 7 placements at the moment
the error escapes — the prior (empty) spread is not left unchanged, so
the deal is not atomic on error. -/
theorem materialize_short_deck_not_atomic :
    exceptIsOk (show_spread celticCfg stC6) = false ∧
      (exceptState (show_spread celticCfg stC6)).tr_sprd.length = 7 ∧
      stC6.tr_sprd.length = 0 ∧ celticCfg.length = 10 := by
  decide

theorem materialize_short_deck_partial_witness :
    stC6.tr_deck.length < celticCfg.length ∧
      ∃ st2, show_spread celticCfg stC6 = .error st2 ∧
        st2.tr_sprd = stC6.tr_sprd ++ List.zipWith placed stC6.tr_deck celticCfg ∧
        st2.tr_sprd.length = stC6.tr_sprd.length + stC6.tr_deck.length :=
  ⟨by decide, materialize_short_deck_partial celticCfg stC6 (by decide)⟩

/-- C9 (amended): the spread is never recreated or cleared between
deals; every completed deal appends exactly one placement per definition
entry to whatever placements were already there, so a second deal
accumulates placements beyond the size of the definition. -/
theorem deal_appends_placements (cfg : List SpreadEntry) (st : WinState)
    (h : cfg.length ≤ st.tr_deck.length) :
    ∃ st2, show_spread cfg st = .ok st2 ∧
      st2.tr_sprd.length = st.tr_sprd.length + cfg.length := by
  unfold show_spread
  rw [show_spread_loop_ok cfg _ 0 (by simpa using h)]
  refine ⟨_, rfl, ?_⟩
  simp only [List.length_append, List.length_zipWith, List.drop_zero]
  omega

/-- C9 (counterexample): dealing the 3-position spread twice from a
3-card deck leaves 6 placements in the spread — more than the
definition's 3 entries — refuting the claim that the spread is rebuilt
on every deal with at most one placement per definition entry. -/
theorem second_deal_accumulates :
    exceptIsOk (show_spread simpleCfg stDealt) = true ∧
      (exceptState (show_spread simpleCfg stDealt)).tr_sprd.length = 6 ∧
      simpleCfg.length = 3 := by
  decide

theorem deal_appends_placements_witness :
    simpleCfg.length ≤ stC9.tr_deck.length ∧
      ∃ st2, show_spread simpleCfg stC9 = .ok st2 ∧
        st2.tr_sprd.length = stC9.tr_sprd.length + simpleCfg.length :=
  ⟨by decide, deal_appends_placements simpleCfg stC9 (by decide)⟩

theorem on_click_aux_nomatch (px py : ℚ) :
    ∀ (cards : List TrCard) (base : Nat) (acc : Option Nat),
      (∀ c ∈ cards, containsPt c px py = false) →
      on_click_aux px py cards base acc = acc := by
  intro cards
  induction cards with
  | nil => intro base acc h; rfl
  | cons c t ih =>
    intro base acc h
    have hc : containsPt c px py = false := h c (by simp)
    simp only [on_click_aux, hc, Bool.false_eq_true, if_false]
    exact ih (base + 1) acc fun x hx => h x (by simp [hx])

theorem on_click_aux_last (px py : ℚ) :
    ∀ (cards : List TrCard) (base : Nat) (acc : Option Nat) (k : Nat)
      (hk : k < cards.length),
      containsPt cards[k] px py = true →
      (∀ m, (hm : m < cards.length) → k < m → containsPt cards[m] px py = false) →
      on_click_aux px py cards base acc = some (base + k) := by
  intro cards
  induction cards with
  | nil => intro base acc k hk; simp at hk
  | cons c t ih =>
    intro base acc k hk hcon hafter
    cases k with
    | zero =>
      simp only [List.getElem_cons_zero] at hcon
      simp only [on_click_aux, hcon, if_true]
      rw [on_click_aux_nomatch px py t (base + 1) (some base) ?_]
      · simp
      · intro x hx
        obtain ⟨m, hm, hxe⟩ := List.mem_iff_getElem.mp hx
        rw [← hxe]
        have := hafter (m + 1) (by simp only [List.length_cons]; omega) (Nat.succ_pos m)
        simpa using this
    | succ n =>
      have hn : n < t.length := by
        simp only [List.length_cons] at hk
        omega
      simp only [List.getElem_cons_succ] at hcon
      simp only [on_click_aux]
      rw [ih (base + 1) _ n hn hcon ?_]
      · congr 1
        omega
      · intro m hm hlt
        have := hafter (m + 1) (by simp only [List.length_cons]; omega) (by omega)
        simpa using this

/-- C4 (amended): hit-testing scans every placement without a break, so
when no placement's region strictly contains the point the stored index
is left at its previous value (none in a fresh session), and when one or
more regions contain the point the index stored at the end of the loop
is the last — highest-index — match (for a unique match this is that
match's index, as the claim says; for overlapping regions the claim's
lowest-index tie-break is refuted by the counterexample). -/
theorem hit_test_last_match (spread : List TrCard) (px py : ℚ) (at0 : Option Nat) :
    ((∀ c ∈ spread, containsPt c px py = false) →
        on_click spread px py at0 = at0) ∧
      ∀ k, (hk : k < spread.length) → containsPt spread[k] px py = true →
        (∀ m, (hm : m < spread.length) → k < m →
          containsPt spread[m] px py = false) →
        on_click spread px py at0 = some k := by
  constructor
  · intro h
    exact on_click_aux_nomatch px py spread 0 at0 h
  · intro k hk h1 h2
    have := on_click_aux_last px py spread 0 at0 k hk h1 h2
    simpa using this

/-- C4 (counterexample): two placements whose identical regions both
strictly contain the point (5, 5): the loop stores the last match, index
1, not the lowest index 0 claimed. -/
theorem hit_test_lowest_index_refuted :
    containsPt (cHit "A") 5 5 = true ∧ containsPt (cHit "B") 5 5 = true ∧
      on_click [cHit "A", cHit "B"] 5 5 none = some 1 := by
  decide

theorem hit_test_last_match_witness :
    (∀ c ∈ [cFar], containsPt c 5 5 = false) ∧
      on_click [cFar] 5 5 (some 2) = some 2 :=
  ⟨by decide, (hit_test_last_match [cFar] 5 5 (some 2)).1 (by decide)⟩

/-- C3: for every session state, once a non-empty file name is chosen the
export writes exactly the header row and then fails: the loop bound
sprd_config has no binding in prompt_quit's scope (it is a local of
show_spread only), so the loop header raises NameError and the export
never completes. -/
theorem export_never_completes (f_name : String) (st : WinState)
    (h : f_name ≠ "") :
    prompt_quit_rows f_name st sprd_config_in_prompt_quit =
      ([["PyTarot reading", st.strv_sprd, st.tr_datetime, st.tr_qry]], false) := by
  unfold prompt_quit_rows sprd_config_in_prompt_quit
  rw [if_neg h]

theorem export_never_completes_witness :
    ("reading.csv" : String) ≠ "" ∧
      prompt_quit_rows "reading.csv" stDealt sprd_config_in_prompt_quit =
        ([["PyTarot reading", stDealt.strv_sprd, stDealt.tr_datetime,
          stDealt.tr_qry]], false) :=
  ⟨by decide, export_never_completes "reading.csv" stDealt (by decide)⟩

/-- C2 (code bug): even in a state where a deal has just completed, the
export writes only the literal header row and fails — no placement row
is ever written, because the loop bound sprd_config is unbound in
prompt_quit and the loop raises NameError. -/
theorem export_after_deal_writes_header_only :
    exceptIsOk (show_spread simpleCfg stC9) = true ∧
      prompt_quit_rows "reading.csv" stDealt sprd_config_in_prompt_quit =
        ([["PyTarot reading", "3 Card Simple Quick", "t", "q"]], false) := by
  decide

end PyTarot
